import Mathlib

/-!
Verification development for the Koala HTML parsing core.

The repository ships the C boundary header `KoalaBrowser/Sources/KoalaCore/include/koala.h`
(declaring `koala_parse_html`, `koala_document_to_json`, `koala_document_child_count`);
the parsing core itself (tokenizer, tree builder, DOM model, serializer) is not present
in the source tree, so it is modelled here from the specification (spec.md §§2–4, 6–8).
-/

set_option maxRecDepth 10000

/-- Modelled from the spec: the DOM `Node` data model (spec §3). The parsing-core
implementation is missing from the source tree; only the C header `koala.h` is present.
A node is a tagged variant over Element (case-normalized tag name, ordered attribute
list with unique names, ordered children), Text, Comment and Doctype. -/
inductive Node where
  | element (tag : String) (attrs : List (String × String)) (children : List Node)
  | text (dat : String)
  | comment (dat : String)
  | doctype (name : String) (publicId systemId : Option String)

/-- Modelled from the spec: a `Document` is the root container owning a forest of
nodes under one implicit root (spec §3). -/
structure Document where
  children : List Node

/-- Modelled from the spec: the ephemeral `Token` variant produced by the tokenizer
(spec §3). End-of-input is represented by the end of the token list. -/
inductive Token where
  | startTag (name : String) (attrs : List (String × String)) (selfClosing : Bool)
  | endTag (name : String)
  | text (dat : String)
  | comment (dat : String)
  | doctype (name : String) (publicId systemId : Option String)
  deriving DecidableEq

/-- Reverse a reversed character accumulator into a string. -/
def revStr (l : List Char) : String := String.mk l.reverse

/-- Modelled from the spec: attribute-name collision policy (spec §4.1): keep the
first value, ignore subsequent duplicates. `seen` holds names already kept. -/
def dedupAttrsAux (seen : List String) : List (String × String) → List (String × String)
  | [] => []
  | (n, v) :: rest =>
    if n ∈ seen then dedupAttrsAux seen rest
    else (n, v) :: dedupAttrsAux (n :: seen) rest

/-- Drop later duplicates of an attribute name, keeping the first occurrence. -/
def dedupAttrs (l : List (String × String)) : List (String × String) := dedupAttrsAux [] l

/-- Accumulator for a start tag under construction: reversed name characters and
the raw attribute list in source order (possibly with duplicate names). -/
structure TagAcc where
  nameRev : List Char
  attrs : List (String × String)

/-- Emit a start-tag token from an accumulator, applying the first-wins duplicate
attribute policy (spec §4.1). -/
def mkStart (t : TagAcc) (sc : Bool) : Token :=
  .startTag (revStr t.nameRev) (dedupAttrs t.attrs) sc

/-- Commit a pending attribute (reversed name and value characters) onto a tag
accumulator, preserving source order. -/
def commitAttr (t : TagAcc) (anRev avRev : List Char) : TagAcc :=
  { t with attrs := t.attrs ++ [(revStr anRev, revStr avRev)] }

/-- True when the character list starts with the seven letters of `doctype`. -/
def isDoctype7 : List Char → Bool
  | 'd' :: 'o' :: 'c' :: 't' :: 'y' :: 'p' :: 'e' :: _ => true
  | _ => false

/-- Classify the body of a `&lt;!...&gt;` construct: a case-insensitive `doctype` prefix
yields a Doctype token (name only; identifiers are left empty), anything else a
bogus-comment token (spec §4.1 tolerance). -/
def mkBogus (accRev : List Char) : Token :=
  let s := accRev.reverse
  if isDoctype7 (s.map Char.toLower) then
    let rest := s.drop 7
    let name := (rest.dropWhile Char.isWhitespace).takeWhile (fun c => !c.isWhitespace)
    .doctype (String.mk (name.map Char.toLower)) none none
  else .comment (String.mk s)

/-- Modelled from the spec: the tokenizer's named internal states (spec §4.1):
Data, TagOpen, TagName, BeforeAttributeName, AttributeName, AttributeValue
(quoted/unquoted), SelfClosingStartTag, comment and markup-declaration states. -/
inductive LexState where
  | dat (accRev : List Char)
  | tagOpen
  | endTagOpen
  | tagName (t : TagAcc)
  | endTagName (nameRev : List Char)
  | endTagRest (nameRev : List Char)
  | beforeAttrName (t : TagAcc)
  | attrName (t : TagAcc) (anRev : List Char)
  | afterAttrName (t : TagAcc) (anRev : List Char)
  | beforeAttrValue (t : TagAcc) (anRev : List Char)
  | attrValueDq (t : TagAcc) (anRev avRev : List Char)
  | attrValueSq (t : TagAcc) (anRev avRev : List Char)
  | attrValueUnq (t : TagAcc) (anRev avRev : List Char)
  | selfClosing (t : TagAcc)
  | bang
  | bangDash
  | comment (accRev : List Char)
  | commentDash (accRev : List Char)
  | commentDashDash (accRev : List Char)
  | bogus (accRev : List Char)

/-- Modelled from the spec: one scanner transition (spec §4.1): each character
transitions the state and optionally emits zero or one token. Tag and attribute
names are case-normalized; attribute values keep their case; unknown character
references pass through literally. -/
def lexStep1 : LexState → Char → LexState × Option Token
  | .dat accRev, c =>
    if c = '<' then
      if accRev.isEmpty then (.tagOpen, none)
      else (.tagOpen, some (.text (revStr accRev)))
    else (.dat (c :: accRev), none)
  | .tagOpen, c =>
    if c = '/' then (.endTagOpen, none)
    else if c = '!' then (.bang, none)
    else if c.isAlpha then (.tagName ⟨[c.toLower], []⟩, none)
    else if c = '<' then (.tagOpen, some (.text "<"))
    else (.dat [c, '<'], none)
  | .endTagOpen, c =>
    if c.isAlpha then (.endTagName [c.toLower], none)
    else if c = '>' then (.dat [], none)
    else (.bogus [c], none)
  | .endTagName nameRev, c =>
    if c = '>' then (.dat [], some (.endTag (revStr nameRev)))
    else if c.isWhitespace then (.endTagRest nameRev, none)
    else (.endTagName (c.toLower :: nameRev), none)
  | .endTagRest nameRev, c =>
    if c = '>' then (.dat [], some (.endTag (revStr nameRev)))
    else (.endTagRest nameRev, none)
  | .tagName t, c =>
    if c = '>' then (.dat [], some (mkStart t false))
    else if c.isWhitespace then (.beforeAttrName t, none)
    else if c = '/' then (.selfClosing t, none)
    else (.tagName { t with nameRev := c.toLower :: t.nameRev }, none)
  | .beforeAttrName t, c =>
    if c.isWhitespace then (.beforeAttrName t, none)
    else if c = '>' then (.dat [], some (mkStart t false))
    else if c = '/' then (.selfClosing t, none)
    else (.attrName t [c.toLower], none)
  | .attrName t anRev, c =>
    if c = '=' then (.beforeAttrValue t anRev, none)
    else if c.isWhitespace then (.afterAttrName t anRev, none)
    else if c = '>' then (.dat [], some (mkStart (commitAttr t anRev []) false))
    else if c = '/' then (.selfClosing (commitAttr t anRev []), none)
    else (.attrName t (c.toLower :: anRev), none)
  | .afterAttrName t anRev, c =>
    if c.isWhitespace then (.afterAttrName t anRev, none)
    else if c = '=' then (.beforeAttrValue t anRev, none)
    else if c = '>' then (.dat [], some (mkStart (commitAttr t anRev []) false))
    else if c = '/' then (.selfClosing (commitAttr t anRev []), none)
    else (.attrName (commitAttr t anRev []) [c.toLower], none)
  | .beforeAttrValue t anRev, c =>
    if c.isWhitespace then (.beforeAttrValue t anRev, none)
    else if c = '"' then (.attrValueDq t anRev [], none)
    else if c = '\'' then (.attrValueSq t anRev [], none)
    else if c = '>' then (.dat [], some (mkStart (commitAttr t anRev []) false))
    else (.attrValueUnq t anRev [c], none)
  | .attrValueDq t anRev avRev, c =>
    if c = '"' then (.beforeAttrName (commitAttr t anRev avRev), none)
    else (.attrValueDq t anRev (c :: avRev), none)
  | .attrValueSq t anRev avRev, c =>
    if c = '\'' then (.beforeAttrName (commitAttr t anRev avRev), none)
    else (.attrValueSq t anRev (c :: avRev), none)
  | .attrValueUnq t anRev avRev, c =>
    if c.isWhitespace then (.beforeAttrName (commitAttr t anRev avRev), none)
    else if c = '>' then (.dat [], some (mkStart (commitAttr t anRev avRev) false))
    else (.attrValueUnq t anRev (c :: avRev), none)
  | .selfClosing t, c =>
    if c = '>' then (.dat [], some (mkStart t true))
    else if c.isWhitespace then (.beforeAttrName t, none)
    else if c = '/' then (.selfClosing t, none)
    else (.attrName t [c.toLower], none)
  | .bang, c =>
    if c = '-' then (.bangDash, none)
    else if c = '>' then (.dat [], some (.comment ""))
    else (.bogus [c], none)
  | .bangDash, c =>
    if c = '-' then (.comment [], none)
    else if c = '>' then (.dat [], some (mkBogus ['-']))
    else (.bogus [c, '-'], none)
  | .comment accRev, c =>
    if c = '-' then (.commentDash accRev, none)
    else (.comment (c :: accRev), none)
  | .commentDash accRev, c =>
    if c = '-' then (.commentDashDash accRev, none)
    else (.comment (c :: '-' :: accRev), none)
  | .commentDashDash accRev, c =>
    if c = '>' then (.dat [], some (.comment (revStr accRev)))
    else if c = '-' then (.commentDashDash ('-' :: accRev), none)
    else (.comment (c :: '-' :: '-' :: accRev), none)
  | .bogus accRev, c =>
    if c = '>' then (.dat [], some (mkBogus accRev))
    else (.bogus (c :: accRev), none)

/-- Modelled from the spec: end-of-input edge policy (spec §4.1): unterminated
tags and comments emit whatever was accumulated as a best-effort token rather
than failing. -/
def lexFinish : LexState → List Token
  | .dat accRev => if accRev.isEmpty then [] else [.text (revStr accRev)]
  | .tagOpen => [.text "<"]
  | .endTagOpen => [.text "</"]
  | .endTagName nameRev => [.endTag (revStr nameRev)]
  | .endTagRest nameRev => [.endTag (revStr nameRev)]
  | .tagName t => [mkStart t false]
  | .beforeAttrName t => [mkStart t false]
  | .attrName t anRev => [mkStart (commitAttr t anRev []) false]
  | .afterAttrName t anRev => [mkStart (commitAttr t anRev []) false]
  | .beforeAttrValue t anRev => [mkStart (commitAttr t anRev []) false]
  | .attrValueDq t anRev avRev => [mkStart (commitAttr t anRev avRev) false]
  | .attrValueSq t anRev avRev => [mkStart (commitAttr t anRev avRev) false]
  | .attrValueUnq t anRev avRev => [mkStart (commitAttr t anRev avRev) false]
  | .selfClosing t => [mkStart t false]
  | .bang => [.comment ""]
  | .bangDash => [.comment "-"]
  | .comment accRev => [.comment (revStr accRev)]
  | .commentDash accRev => [.comment (revStr accRev)]
  | .commentDashDash accRev => [.comment (revStr accRev)]
  | .bogus accRev => [mkBogus accRev]

/-- Run the scanner over the remaining characters, collecting emitted tokens. -/
def lexRun (st : LexState) : List Char → List Token
  | [] => lexFinish st
  | c :: cs =>
    match lexStep1 st c with
    | (st', none) => lexRun st' cs
    | (st', some t) => t :: lexRun st' cs

/-- Modelled from the spec: `tokenize(text) → finite sequence of Token` (spec §4.1).
The tokenizer never raises a hard error. -/
def tokenize (s : String) : List Token := lexRun (.dat []) s.data

/-- Modelled from the spec: the Tree Builder's insertion modes (spec §4.2), a
reduced but faithful subset of the standard modes. The text-insertion special
mode (raw-text elements) is not needed by any claim and is not modelled. -/
inductive Mode where
  | initial
  | beforeHtml
  | beforeHead
  | inHead
  | afterHead
  | inBody
  | afterBody
  | afterAfterBody
  deriving DecidableEq

/-- An entry of the open-element stack: an element currently open for insertion,
with its children accumulated so far in reverse order. -/
structure OpenElem where
  tag : String
  attrs : List (String × String)
  childrenRev : List Node

/-- Modelled from the spec: Tree Builder state (spec §4.2): current insertion
mode, the open-element stack (top = current insertion point), and the partially
built skeleton slots (document-level nodes before and after the root element,
root/head/body attributes, and completed head/body children). `tagSeen` records
whether an element-level token has been seen, governing skeleton synthesis. -/
structure BState where
  mode : Mode
  rootRev : List Node
  postRev : List Node
  htmlAttrs : List (String × String)
  headAttrs : List (String × String)
  bodyAttrs : List (String × String)
  headRev : List Node
  bodyRev : List Node
  stack : List OpenElem
  tagSeen : Bool

/-- The initial Tree Builder state. -/
def initState : BState :=
  { mode := .initial, rootRev := [], postRev := [], htmlAttrs := [], headAttrs := [],
    bodyAttrs := [], headRev := [], bodyRev := [], stack := [], tagSeen := false }

/-- Append a node onto a reversed sibling list, merging a text node into an
existing trailing text sibling rather than creating a new node (spec §4.2). -/
def pushNode (rev : List Node) (n : Node) : List Node :=
  match n, rev with
  | .text s, .text t :: rest => .text (t ++ s) :: rest
  | _, _ => n :: rev

/-- Modelled from the spec: the standard HTML void elements (spec §4.2, §9):
they accept no children and are never pushed onto the open-element stack. -/
def voidTags : List String :=
  ["area", "base", "br", "col", "embed", "hr", "img", "input", "link", "meta",
   "param", "source", "track", "wbr"]

/-- Elements whose start tags are inserted inside `head` while in the InHead
mode; any other start tag there requires body context (spec §4.2). -/
def headTags : List String :=
  ["base", "basefont", "bgsound", "link", "meta", "title", "style", "script",
   "noscript", "template"]

/-- Append a content node at the current insertion point: the top of the
open-element stack, or the mode's skeleton slot when the stack is empty. -/
def appendTo (st : BState) (n : Node) : BState :=
  match st.stack with
  | e :: rest => { st with stack := { e with childrenRev := pushNode e.childrenRev n } :: rest }
  | [] =>
    match st.mode with
    | .initial | .beforeHtml => { st with rootRev := pushNode st.rootRev n }
    | .beforeHead | .inHead => { st with headRev := pushNode st.headRev n }
    | .afterAfterBody => { st with postRev := pushNode st.postRev n }
    | _ => { st with bodyRev := pushNode st.bodyRev n }

/-- Pop `n` elements off the open-element stack, closing each popped element
into its parent (or into the bottom target list when the stack empties). -/
def popN : Nat → List OpenElem → List Node → List OpenElem × List Node
  | 0, stk, bot => (stk, bot)
  | _ + 1, [], bot => ([], bot)
  | n + 1, e :: rest, bot =>
    let nd := Node.element e.tag e.attrs e.childrenRev.reverse
    match rest with
    | [] => popN n [] (pushNode bot nd)
    | p :: ps => popN n ({ p with childrenRev := pushNode p.childrenRev nd } :: ps) bot

/-- Close the `n` topmost open elements; the bottom of the stack closes into the
head slot in InHead mode and into the body slot otherwise. -/
def closeInto (st : BState) (n : Nat) : BState :=
  if st.mode = .inHead then
    let r := popN n st.stack st.headRev
    { st with stack := r.1, headRev := r.2 }
  else
    let r := popN n st.stack st.bodyRev
    { st with stack := r.1, bodyRev := r.2 }

/-- Insert an element for a start tag: void elements are appended and closed
immediately, all others are pushed onto the open-element stack (spec §4.2). -/
def insertElem (st : BState) (name : String) (attrs : List (String × String)) : BState :=
  if name ∈ voidTags then appendTo st (.element name attrs [])
  else { st with stack := ⟨name, attrs, []⟩ :: st.stack }

/-- Modelled from the spec: StartTag processing by insertion mode (spec §4.2),
including skeleton synthesis: the first element-level token establishes the
implicit root/head/body context when the input does not supply those tags. -/
def dispatchStart (st : BState) (name : String) (attrs : List (String × String)) : BState :=
  match st.mode with
  | .initial | .beforeHtml =>
    if name = "html" then { st with htmlAttrs := attrs, mode := .beforeHead }
    else if name = "head" then { st with headAttrs := attrs, mode := .inHead }
    else if name = "body" then { st with bodyAttrs := attrs, mode := .inBody }
    else insertElem { st with mode := .inBody } name attrs
  | .beforeHead =>
    if name = "html" then st
    else if name = "head" then { st with headAttrs := attrs, mode := .inHead }
    else if name = "body" then { st with bodyAttrs := attrs, mode := .inBody }
    else insertElem { st with mode := .inBody } name attrs
  | .inHead =>
    if name = "html" ∨ name = "head" then st
    else if name = "body" then
      let st' := closeInto st st.stack.length
      { st' with bodyAttrs := attrs, mode := .inBody }
    else if name ∈ headTags then insertElem st name attrs
    else
      let st' := closeInto st st.stack.length
      insertElem { st' with mode := .inBody } name attrs
  | .afterHead =>
    if name = "html" ∨ name = "head" then st
    else if name = "body" then { st with bodyAttrs := attrs, mode := .inBody }
    else insertElem { st with mode := .inBody } name attrs
  | .inBody =>
    if name = "html" ∨ name = "head" ∨ name = "body" then st
    else insertElem st name attrs
  | .afterBody | .afterAfterBody =>
    if name = "html" ∨ name = "head" ∨ name = "body" then st
    else insertElem { st with mode := .inBody } name attrs

/-- Modelled from the spec: generic EndTag recovery (spec §4.2): scan the
open-element stack from the top for a matching name; if found, pop all elements
above and including it (implicit closure); if not found, ignore the token. -/
def genericEnd (st : BState) (name : String) : BState :=
  if st.stack.any (fun e => e.tag = name) then
    closeInto st (st.stack.findIdx (fun e => e.tag = name) + 1)
  else st

/-- Modelled from the spec: EndTag processing by insertion mode (spec §4.2);
`html`/`head`/`body` end tags drive the skeleton mode transitions, all other
end tags use the generic stack-scan closure rule. -/
def dispatchEnd (st : BState) (name : String) : BState :=
  match st.mode with
  | .initial | .beforeHtml =>
    if name = "html" then { st with mode := .afterAfterBody }
    else if name = "head" then { st with mode := .afterHead }
    else if name = "body" then { st with mode := .afterBody }
    else { st with mode := .inBody }
  | .beforeHead =>
    if name = "html" then { st with mode := .afterAfterBody }
    else if name = "head" then { st with mode := .afterHead }
    else if name = "body" then { st with mode := .afterBody }
    else st
  | .inHead =>
    if name = "head" then { closeInto st st.stack.length with mode := .afterHead }
    else if name = "html" then { closeInto st st.stack.length with mode := .afterAfterBody }
    else if name = "body" then st
    else genericEnd st name
  | .afterHead =>
    if name = "html" then { st with mode := .afterAfterBody }
    else st
  | .inBody =>
    if name = "body" then { closeInto st st.stack.length with mode := .afterBody }
    else if name = "html" then { closeInto st st.stack.length with mode := .afterAfterBody }
    else if name = "head" then st
    else genericEnd st name
  | .afterBody =>
    if name = "html" then { st with mode := .afterAfterBody }
    else st
  | .afterAfterBody => st

/-- Modelled from the spec: token dispatch by kind and mode (spec §4.2): a
Doctype is accepted only in Initial mode, comments never change the insertion
mode, text appends at the current insertion point (re-entering body context
where required), element tokens go through start/end tag processing. -/
def dispatch (st : BState) (t : Token) : BState :=
  match t with
  | .doctype n p q =>
    match st.mode with
    | .initial => { st with rootRev := pushNode st.rootRev (.doctype n p q), mode := .beforeHtml }
    | _ => st
  | .comment s => appendTo st (.comment s)
  | .text s =>
    match st.mode with
    | .beforeHead | .afterHead | .afterBody | .afterAfterBody =>
      appendTo { st with mode := .inBody } (.text s)
    | _ => appendTo st (.text s)
  | .startTag name attrs _ => dispatchStart st name attrs
  | .endTag name => dispatchEnd st name

/-- True for element-level tokens (start and end tags). -/
def isElemTok : Token → Bool
  | .startTag _ _ _ => true
  | .endTag _ => true
  | _ => false

/-- One Tree Builder step: dispatch the token and record whether an
element-level token has been seen (for skeleton synthesis at finalization). -/
def step (st : BState) (t : Token) : BState :=
  { dispatch st t with tagSeen := st.tagSeen || isElemTok t }

/-- Modelled from the spec: EndOfInput processing (spec §4.2): pop all remaining
open elements (implicit close) and finalize the Document; when an element-level
token was seen the canonical root/head/body skeleton is synthesized. -/
def finalize (st : BState) : Document :=
  let st' := closeInto st st.stack.length
  if st'.tagSeen then
    { children := st'.rootRev.reverse ++
        (Node.element "html" st'.htmlAttrs
          [Node.element "head" st'.headAttrs st'.headRev.reverse,
           Node.element "body" st'.bodyAttrs st'.bodyRev.reverse]) :: st'.postRev.reverse }
  else { children := st'.rootRev.reverse ++ st'.postRev.reverse }

/-- Modelled from the spec: `build(token stream) → Document` (spec §4.2), a
single pass over the tokens; the Tree Builder never aborts. -/
def build (toks : List Token) : Document := finalize (toks.foldl step initState)

/-- Modelled from the spec and the header `koala.h`: `koala_parse_html` parses an
HTML string into a Document; NULL (`none`) is reserved for input that cannot be
decoded as character data, which cannot arise for a (UTF-8) `String` (spec §6, §7). -/
def koala_parse_html (html : String) : Option Document :=
  some (build (tokenize html))

/-- Modelled from the spec and the header `koala.h`: number of direct children
of the document root, not recursive (spec §4.3, §6). -/
def koala_document_child_count (doc : Document) : Nat := doc.children.length

example : koala_parse_html "ab" = some ⟨[.text "ab"]⟩ := rfl
example : koala_parse_html "a<!--c-->b" = some ⟨[.text "a", .comment "c", .text "b"]⟩ := rfl
example : koala_parse_html "<div><p>text" =
    some ⟨[.element "html" [] [.element "head" [] [], .element "body" []
      [.element "div" [] [.element "p" [] [.text "text"]]]]]⟩ := rfl
example : koala_parse_html "<div><span></div>" =
    some ⟨[.element "html" [] [.element "head" [] [], .element "body" []
      [.element "div" [] [.element "span" [] []]]]]⟩ := rfl
example : koala_parse_html "<a href='x' href='y'>" =
    some ⟨[.element "html" [] [.element "head" [] [], .element "body" []
      [.element "a" [("href", "x")] []]]]⟩ := rfl

theorem step_tagSeen (st : BState) (t : Token) :
    (step st t).tagSeen = (st.tagSeen || isElemTok t) := rfl

theorem closeInto_tagSeen (st : BState) (n : Nat) :
    (closeInto st n).tagSeen = st.tagSeen := by
  unfold closeInto; split <;> rfl

theorem foldl_step_tagSeen_mono :
    ∀ (l : List Token) (st : BState), st.tagSeen = true →
      (l.foldl step st).tagSeen = true := by
  intro l
  induction l with
  | nil => intro st h; exact h
  | cons t ts ih =>
    intro st h
    exact ih (step st t) (by rw [step_tagSeen, h, Bool.true_or])

theorem foldl_step_tagSeen_of_mem {t : Token} :
    ∀ (l : List Token) (st : BState), t ∈ l → isElemTok t = true →
      (l.foldl step st).tagSeen = true := by
  intro l
  induction l with
  | nil => intro st h; exact absurd h (List.not_mem_nil t)
  | cons u ts ih =>
    intro st hmem he
    rcases List.mem_cons.mp hmem with h | h
    · subst h
      exact foldl_step_tagSeen_mono ts (step st t) (by rw [step_tagSeen, he, Bool.or_true])
    · exact ih (step st u) h he

theorem finalize_skeleton (st : BState) (h : st.tagSeen = true) :
    ∃ pre a ha hc ba bc post, (finalize st).children =
      pre ++ (Node.element "html" a
        [Node.element "head" ha hc, Node.element "body" ba bc]) :: post := by
  have h' : (closeInto st st.stack.length).tagSeen = true := by
    rw [closeInto_tagSeen]; exact h
  unfold finalize
  rw [if_pos h']
  exact ⟨_, _, _, _, _, _, _, rfl⟩

/-- C1: for every valid UTF-8 input text (every Lean `String`), `koala_parse_html`
succeeds and returns a Document: the tokenizer and Tree Builder are total, the
parser never aborts, and a `none`/NULL result never arises from the shape of the
markup. -/
theorem C1_parse_never_fails : ∀ s : String, ∃ d : Document, koala_parse_html s = some d :=
  fun _ => ⟨_, rfl⟩

/-- C2: whenever the token stream of the input contains at least one
element-level token (a start or end tag), the parsed Document has the canonical
skeleton: a root `html` element containing `head` and `body` as siblings,
synthesized if the input did not supply those tags. -/
theorem C2_skeleton_synthesized (s : String) (d : Document)
    (hp : koala_parse_html s = some d)
    (he : (tokenize s).any isElemTok = true) :
    ∃ pre a ha hc ba bc post, d.children =
      pre ++ (Node.element "html" a
        [Node.element "head" ha hc, Node.element "body" ba bc]) :: post := by
  have hd : d = build (tokenize s) := by
    have := hp
    unfold koala_parse_html at this
    exact (Option.some.injEq _ _ ▸ this.symm)
  subst hd
  obtain ⟨t, hmem, ht⟩ := List.any_eq_true.mp he
  exact finalize_skeleton _ (foldl_step_tagSeen_of_mem (tokenize s) initState hmem ht)

theorem C2_skeleton_synthesized_witness :
    (koala_parse_html "<div>" = some (build (tokenize "<div>"))) ∧
    ((tokenize "<div>").any isElemTok = true) ∧
    (∃ pre a ha hc ba bc post, (build (tokenize "<div>")).children =
      pre ++ (Node.element "html" a
        [Node.element "head" ha hc, Node.element "body" ba bc]) :: post) :=
  ⟨rfl, rfl, C2_skeleton_synthesized "<div>" _ rfl rfl⟩

/-- C3: parsing `"<div><p>text"` yields a Document in which both unclosed
elements are implicitly closed at end-of-input, `p` is nested inside `div`, and
`p` contains exactly one Text node `"text"` (the skeleton is synthesized around
them). -/
theorem C3_unclosed_tags_auto_closed :
    koala_parse_html "<div><p>text" =
      some ⟨[.element "html" [] [.element "head" [] [], .element "body" []
        [.element "div" [] [.element "p" [] [.text "text"]]]]]⟩ := rfl

/-- C4: parsing `"<div><span></div>"` yields a Document (no error): the `div`
end tag scans the open-element stack, pops `span` and `div` (implicitly closing
the unclosed `span` inside `div`); and in general an end tag with no matching
element on the open stack (and not one of the skeleton tags) leaves the builder
state unchanged. -/
theorem C4_mismatched_end_tags_tolerated :
    (koala_parse_html "<div><span></div>" =
      some ⟨[.element "html" [] [.element "head" [] [], .element "body" []
        [.element "div" [] [.element "span" [] []]]]]⟩) ∧
    (∀ (st : BState) (name : String), st.mode = Mode.inBody →
      name ≠ "html" → name ≠ "head" → name ≠ "body" →
      st.stack.any (fun e => e.tag = name) = false →
      dispatch st (.endTag name) = st) := by
  refine ⟨rfl, ?_⟩
  intro st name hm h1 h2 h3 h4
  simp [dispatch, dispatchEnd, hm, h1, h2, h3, genericEnd, h4]

theorem C4_mismatched_end_tags_tolerated_witness :
    dispatch { initState with mode := Mode.inBody } (Token.endTag "q") =
      { initState with mode := Mode.inBody } :=
  C4_mismatched_end_tags_tolerated.2 _ "q" rfl (by decide) (by decide) (by decide) rfl

/-- C5: adjacent text runs merge exactly when nothing intervenes: parsing
`"ab"` yields exactly one Text node `"ab"`, while parsing `"a<!--c-->b"` yields
two separate Text nodes `"a"` and `"b"` because the intervening comment breaks
the merge. -/
theorem C5_adjacent_text_merge :
    (koala_parse_html "ab" = some ⟨[.text "ab"]⟩) ∧
    (koala_parse_html "a<!--c-->b" =
      some ⟨[.text "a", .comment "c", .text "b"]⟩) :=
  ⟨rfl, rfl⟩

/-- True when the attribute names in the list are pairwise distinct. -/
def nodupKeys : List (String × String) → Bool
  | [] => true
  | (n, _) :: rest => !(rest.any (fun p => p.1 = n)) && nodupKeys rest

theorem mem_dedupAttrsAux :
    ∀ (l : List (String × String)) (seen : List String) (p : String × String),
      p ∈ dedupAttrsAux seen l → p.1 ∉ seen := by
  intro l
  induction l with
  | nil => intro seen p hp; simp [dedupAttrsAux] at hp
  | cons q rest ih =>
    intro seen p hp
    obtain ⟨n, v⟩ := q
    unfold dedupAttrsAux at hp
    by_cases hn : n ∈ seen
    · rw [if_pos hn] at hp
      exact ih seen p hp
    · rw [if_neg hn] at hp
      rcases List.mem_cons.mp hp with h | h
      · subst h; exact hn
      · have := ih (n :: seen) p h
        exact fun hmem => this (List.mem_cons_of_mem _ hmem)

theorem nodupKeys_dedupAttrsAux :
    ∀ (l : List (String × String)) (seen : List String),
      nodupKeys (dedupAttrsAux seen l) = true := by
  intro l
  induction l with
  | nil => intro seen; rfl
  | cons q rest ih =>
    intro seen
    obtain ⟨n, v⟩ := q
    unfold dedupAttrsAux
    by_cases hn : n ∈ seen
    · rw [if_pos hn]; exact ih seen
    · rw [if_neg hn]
      unfold nodupKeys
      rw [Bool.and_eq_true]
      refine ⟨?_, ih (n :: seen)⟩
      rw [Bool.not_eq_true']
      by_contra hany
      have hany' : (dedupAttrsAux (n :: seen) rest).any (fun p => p.1 = n) = true := by
        revert hany
        cases (dedupAttrsAux (n :: seen) rest).any (fun p => p.1 = n) <;> simp
      obtain ⟨p, hmem, hpn⟩ := List.any_eq_true.mp hany'
      have : p.1 ∉ n :: seen := mem_dedupAttrsAux rest (n :: seen) p hmem
      exact this (by simp only [decide_eq_true_eq] at hpn; rw [hpn]; exact List.mem_cons_self n seen)

theorem nodupKeys_dedupAttrs (l : List (String × String)) :
    nodupKeys (dedupAttrs l) = true := nodupKeys_dedupAttrsAux l []

/-- Token well-formedness: start tags carry duplicate-free attribute lists. -/
def tokOk : Token → Bool
  | .startTag _ attrs _ => nodupKeys attrs
  | _ => true

theorem tokOk_mkStart (t : TagAcc) (sc : Bool) : tokOk (mkStart t sc) = true :=
  nodupKeys_dedupAttrs t.attrs

theorem tokOk_mkBogus (accRev : List Char) : tokOk (mkBogus accRev) = true := by
  unfold mkBogus
  dsimp only
  split <;> rfl

/-- Well-formedness of an optional emitted token. -/
def optOk : Option Token → Bool
  | none => true
  | some t => tokOk t

theorem lexStep1_ok (st : LexState) (c : Char) : optOk (lexStep1 st c).2 = true := by
  cases st <;> simp only [lexStep1] <;> split_ifs <;> dsimp only [optOk] <;>
    first
      | rfl
      | exact tokOk_mkStart _ _
      | exact tokOk_mkBogus _

theorem lexFinish_ok (st : LexState) (t : Token) (h : t ∈ lexFinish st) : tokOk t = true := by
  cases st <;> simp only [lexFinish] at h
  case dat accRev =>
    split_ifs at h
    · exact absurd h (List.not_mem_nil t)
    · rcases List.mem_singleton.mp h with rfl; rfl
  all_goals
    rcases List.mem_singleton.mp h with rfl
    first
      | rfl
      | exact tokOk_mkStart _ _
      | exact tokOk_mkBogus _

theorem lexRun_ok :
    ∀ (cs : List Char) (st : LexState) (t : Token), t ∈ lexRun st cs → tokOk t = true := by
  intro cs
  induction cs with
  | nil => intro st t h; exact lexFinish_ok st t h
  | cons c cs ih =>
    intro st t h
    unfold lexRun at h
    rcases hstep : lexStep1 st c with ⟨st', o⟩
    rw [hstep] at h
    cases o with
    | none => exact ih st' t h
    | some tok =>
      rcases List.mem_cons.mp h with h | h
      · subst h
        have := lexStep1_ok st c
        rw [hstep] at this
        exact this
      · exact ih st' t h

theorem tokenize_ok (s : String) (t : Token) (h : t ∈ tokenize s) : tokOk t = true :=
  lexRun_ok s.data (.dat []) t h

mutual
/-- Every element in the node carries a duplicate-free attribute list. -/
def nodeOk : Node → Bool
  | .element _ attrs children => nodupKeys attrs && nodesOk children
  | _ => true

/-- Every element in any node of the list carries a duplicate-free attribute list. -/
def nodesOk : List Node → Bool
  | [] => true
  | n :: ns => nodeOk n && nodesOk ns
end

theorem nodesOk_eq_all : ∀ l : List Node, nodesOk l = l.all nodeOk := by
  intro l
  induction l with
  | nil => rfl
  | cons n ns ih => simp only [nodesOk, List.all_cons, ih]

theorem nodesOk_append (l₁ l₂ : List Node) :
    nodesOk (l₁ ++ l₂) = (nodesOk l₁ && nodesOk l₂) := by
  simp [nodesOk_eq_all, List.all_append]

theorem nodesOk_reverse (l : List Node) : nodesOk l.reverse = nodesOk l := by
  simp only [nodesOk_eq_all]
  induction l with
  | nil => rfl
  | cons n ns ih =>
    rw [List.reverse_cons, List.all_append, ih]
    simp [List.all_cons, Bool.and_comm]

theorem pushNode_ok {rev : List Node} {n : Node}
    (h1 : nodesOk rev = true) (h2 : nodeOk n = true) :
    nodesOk (pushNode rev n) = true := by
  unfold pushNode
  split
  · rename_i s t rest
    simp only [nodesOk, nodeOk, Bool.true_and] at h1 ⊢
    exact h1
  · simp only [nodesOk, h1, h2, Bool.and_self]

/-- All open elements carry duplicate-free attributes and well-formed children. -/
def StackOk (stk : List OpenElem) : Prop :=
  ∀ e ∈ stk, nodupKeys e.attrs = true ∧ nodesOk e.childrenRev = true

/-- Attribute well-formedness of the whole Tree Builder state. -/
def StateOk (st : BState) : Prop :=
  nodesOk st.rootRev = true ∧ nodesOk st.postRev = true ∧
  nodesOk st.headRev = true ∧ nodesOk st.bodyRev = true ∧
  nodupKeys st.htmlAttrs = true ∧ nodupKeys st.headAttrs = true ∧
  nodupKeys st.bodyAttrs = true ∧ StackOk st.stack

theorem popN_ok : ∀ (n : Nat) (stk : List OpenElem) (bot : List Node),
    StackOk stk → nodesOk bot = true →
    StackOk (popN n stk bot).1 ∧ nodesOk (popN n stk bot).2 = true := by
  intro n
  induction n with
  | zero => intro stk bot hs hb; exact ⟨hs, hb⟩
  | succ n ih =>
    intro stk bot hs hb
    match stk with
    | [] => exact ⟨fun e he => absurd he (List.not_mem_nil e), hb⟩
    | e :: rest =>
      have he := hs e (List.mem_cons_self e rest)
      have hnd : nodeOk (Node.element e.tag e.attrs e.childrenRev.reverse) = true := by
        simp only [nodeOk, nodesOk_reverse, he.1, he.2, Bool.and_self]
      match rest with
      | [] =>
        simp only [popN]
        exact ih [] _ (fun x hx => absurd hx (List.not_mem_nil x)) (pushNode_ok hb hnd)
      | p :: ps =>
        simp only [popN]
        refine ih _ bot ?_ hb
        intro x hx
        rcases List.mem_cons.mp hx with h | h
        · subst h
          have hp := hs p (List.mem_cons_of_mem _ (List.mem_cons_self p ps))
          exact ⟨hp.1, pushNode_ok hp.2 hnd⟩
        · exact hs x (List.mem_cons_of_mem _ (List.mem_cons_of_mem _ h))

theorem appendTo_ok {st : BState} {n : Node}
    (h : StateOk st) (hn : nodeOk n = true) : StateOk (appendTo st n) := by
  obtain ⟨m, rR, pR, hA, heA, bA, heR, bR, stk, ts⟩ := st
  obtain ⟨h1, h2, h3, h4, h5, h6, h7, h8⟩ := h
  cases stk with
  | cons e rest =>
    refine ⟨h1, h2, h3, h4, h5, h6, h7, ?_⟩
    intro x hx
    rcases List.mem_cons.mp hx with hh | hh
    · subst hh
      have he := h8 e (List.mem_cons_self e rest)
      exact ⟨he.1, pushNode_ok he.2 hn⟩
    · exact h8 x (List.mem_cons_of_mem _ hh)
  | nil =>
    cases m <;>
      refine ⟨?_, ?_, ?_, ?_, h5, h6, h7, h8⟩ <;>
      first
        | exact h1
        | exact h2
        | exact h3
        | exact h4
        | exact pushNode_ok h1 hn
        | exact pushNode_ok h2 hn
        | exact pushNode_ok h3 hn
        | exact pushNode_ok h4 hn

theorem StateOk_setMode {st : BState} (h : StateOk st) (m : Mode) :
    StateOk { st with mode := m } := h

theorem StateOk_setHtmlAttrs {st : BState} (h : StateOk st)
    {attrs : List (String × String)} (ha : nodupKeys attrs = true) (m : Mode) :
    StateOk { st with htmlAttrs := attrs, mode := m } := by
  obtain ⟨h1, h2, h3, h4, _, h6, h7, h8⟩ := h
  exact ⟨h1, h2, h3, h4, ha, h6, h7, h8⟩

theorem StateOk_setHeadAttrs {st : BState} (h : StateOk st)
    {attrs : List (String × String)} (ha : nodupKeys attrs = true) (m : Mode) :
    StateOk { st with headAttrs := attrs, mode := m } := by
  obtain ⟨h1, h2, h3, h4, h5, _, h7, h8⟩ := h
  exact ⟨h1, h2, h3, h4, h5, ha, h7, h8⟩

theorem StateOk_setBodyAttrs {st : BState} (h : StateOk st)
    {attrs : List (String × String)} (ha : nodupKeys attrs = true) (m : Mode) :
    StateOk { st with bodyAttrs := attrs, mode := m } := by
  obtain ⟨h1, h2, h3, h4, h5, h6, _, h8⟩ := h
  exact ⟨h1, h2, h3, h4, h5, h6, ha, h8⟩

theorem closeInto_ok {st : BState} (h : StateOk st) (n : Nat) : StateOk (closeInto st n) := by
  obtain ⟨m, rR, pR, hA, heA, bA, heR, bR, stk, ts⟩ := st
  obtain ⟨h1, h2, h3, h4, h5, h6, h7, h8⟩ := h
  unfold closeInto
  split
  · have hp := popN_ok n stk heR h8 h3
    exact ⟨h1, h2, hp.2, h4, h5, h6, h7, hp.1⟩
  · have hp := popN_ok n stk bR h8 h4
    exact ⟨h1, h2, h3, hp.2, h5, h6, h7, hp.1⟩

theorem insertElem_ok {st : BState} {name : String} {attrs : List (String × String)}
    (h : StateOk st) (ha : nodupKeys attrs = true) : StateOk (insertElem st name attrs) := by
  unfold insertElem
  split
  · exact appendTo_ok h (by simp [nodeOk, nodesOk, ha])
  · obtain ⟨m, rR, pR, hA, heA, bA, heR, bR, stk, ts⟩ := st
    obtain ⟨h1, h2, h3, h4, h5, h6, h7, h8⟩ := h
    refine ⟨h1, h2, h3, h4, h5, h6, h7, ?_⟩
    intro x hx
    rcases List.mem_cons.mp hx with hh | hh
    · subst hh; exact ⟨ha, rfl⟩
    · exact h8 x hh

theorem dispatchStart_ok {st : BState} {name : String} {attrs : List (String × String)}
    (h : StateOk st) (ha : nodupKeys attrs = true) :
    StateOk (dispatchStart st name attrs) := by
  unfold dispatchStart
  split <;> split_ifs <;>
    first
      | exact StateOk_setHtmlAttrs h ha _
      | exact StateOk_setHeadAttrs h ha _
      | exact StateOk_setBodyAttrs h ha _
      | exact StateOk_setBodyAttrs (closeInto_ok h _) ha _
      | exact insertElem_ok (StateOk_setMode h _) ha
      | exact insertElem_ok h ha
      | exact insertElem_ok (StateOk_setMode (closeInto_ok h _) _) ha
      | exact h

theorem genericEnd_ok {st : BState} (h : StateOk st) (name : String) :
    StateOk (genericEnd st name) := by
  unfold genericEnd
  split
  · exact closeInto_ok h _
  · exact h

theorem dispatchEnd_ok {st : BState} (h : StateOk st) (name : String) :
    StateOk (dispatchEnd st name) := by
  unfold dispatchEnd
  split <;> (try split_ifs) <;>
    first
      | exact StateOk_setMode (closeInto_ok h _) _
      | exact StateOk_setMode h _
      | exact genericEnd_ok h name
      | exact h

theorem dispatch_ok {st : BState} {t : Token} (h : StateOk st) (ht : tokOk t = true) :
    StateOk (dispatch st t) := by
  cases t with
  | doctype n p q =>
    simp only [dispatch]
    split
    all_goals
      first
        | exact h
        | (obtain ⟨h1, h2, h3, h4, h5, h6, h7, h8⟩ := h
           refine ⟨?_, h2, h3, h4, h5, h6, h7, h8⟩
           exact pushNode_ok h1 (show nodeOk (Node.doctype n p q) = true from rfl))
  | comment s =>
    simp only [dispatch]
    exact appendTo_ok h (show nodeOk (Node.comment s) = true from rfl)
  | text s =>
    simp only [dispatch]
    split
    all_goals
      first
        | exact appendTo_ok (StateOk_setMode h Mode.inBody)
            (show nodeOk (Node.text s) = true from rfl)
        | exact appendTo_ok h (show nodeOk (Node.text s) = true from rfl)
  | startTag name attrs sc => exact dispatchStart_ok h ht
  | endTag name => exact dispatchEnd_ok h name

theorem step_ok {st : BState} {t : Token} (h : StateOk st) (ht : tokOk t = true) :
    StateOk (step st t) := dispatch_ok h ht

theorem initState_ok : StateOk initState :=
  ⟨rfl, rfl, rfl, rfl, rfl, rfl, rfl, fun x hx => absurd hx (List.not_mem_nil x)⟩

theorem build_fold_ok :
    ∀ (l : List Token) (st : BState), (∀ t ∈ l, tokOk t = true) → StateOk st →
      StateOk (l.foldl step st) := by
  intro l
  induction l with
  | nil => intro st _ h; exact h
  | cons t ts ih =>
    intro st hl h
    exact ih (step st t)
      (fun u hu => hl u (List.mem_cons_of_mem _ hu))
      (step_ok h (hl t (List.mem_cons_self t ts)))

theorem finalize_ok {st : BState} (h : StateOk st) :
    nodesOk (finalize st).children = true := by
  have h' := closeInto_ok h st.stack.length
  obtain ⟨h1, h2, h3, h4, h5, h6, h7, _⟩ := h'
  unfold finalize
  dsimp only
  split
  · simp [nodesOk_append, nodesOk, nodeOk, nodesOk_reverse, h1, h2, h3, h4, h5, h6, h7]
  · simp [nodesOk_append, nodesOk_reverse, h1, h2]

/-- C6: parsing `"<a href='x' href='y'>"` yields an `a` element whose `href`
attribute is `"x"` (first occurrence wins), and in every Document produced by
`koala_parse_html` every Element carries a duplicate-free attribute list (later
duplicates were ignored). -/
theorem C6_duplicate_attribute_first_wins :
    (koala_parse_html "<a href='x' href='y'>" =
      some ⟨[.element "html" [] [.element "head" [] [], .element "body" []
        [.element "a" [("href", "x")] []]]]⟩) ∧
    (∀ (s : String) (d : Document), koala_parse_html s = some d →
      nodesOk d.children = true) := by
  refine ⟨rfl, ?_⟩
  intro s d hp
  have hd : d = build (tokenize s) := by
    unfold koala_parse_html at hp
    exact (Option.some.injEq _ _ ▸ hp.symm)
  subst hd
  unfold build
  exact finalize_ok (build_fold_ok (tokenize s) initState
    (fun t ht => tokenize_ok s t ht) initState_ok)

theorem C6_duplicate_attribute_first_wins_witness :
    nodesOk (build (tokenize "<a href='x' href='y'>")).children = true :=
  C6_duplicate_attribute_first_wins.2 "<a href='x' href='y'>" _ rfl

mutual
/-- Number of nodes in a node's subtree (the node itself plus descendants). -/
def nodeSize : Node → Nat
  | .element _ _ children => 1 + listSize children
  | _ => 1

/-- Total number of nodes in the subtrees of a list of nodes. -/
def listSize : List Node → Nat
  | [] => 0
  | n :: ns => nodeSize n + listSize ns
end

/-- Total number of nodes in a Document. -/
def docNodeCount (d : Document) : Nat := listSize d.children

/-- C8: `koala_document_child_count` returns the number of direct children of
the document root only (a natural number, hence non-negative); it is not
recursive: on `"<div><p>text"` the root has 1 direct child while the Document
holds 6 nodes in total. -/
theorem C8_child_count_direct_only :
    (∀ d : Document, koala_document_child_count d = d.children.length) ∧
    (∃ d : Document, koala_parse_html "<div><p>text" = some d ∧
      koala_document_child_count d = 1 ∧ docNodeCount d = 6) := by
  refine ⟨fun d => rfl, ⟨⟨[.element "html" [] [.element "head" [] [], .element "body" []
    [.element "div" [] [.element "p" [] [.text "text"]]]]]⟩, rfl, rfl, ?_⟩⟩
  simp [docNodeCount, listSize, nodeSize]

/-- Modelled from the spec: the serializer's structured textual encoding
(spec §4.4): object/array/string literals mirroring the tree. -/
inductive Json where
  | str (s : String)
  | arr (items : List Json)
  | obj (fields : List (String × Json))
  | jnull

/-- Serialize one attribute pair as a two-element array (preserving order). -/
def attrToJson (p : String × String) : Json := .arr [.str p.1, .str p.2]

/-- Serialize an optional identifier. -/
def optToJson : Option String → Json
  | none => .jnull
  | some s => .str s

mutual
/-- Modelled from the spec: each Node becomes an object carrying its variant tag
and variant-specific fields; attribute order and child order are preserved
exactly as stored (spec §4.4). -/
def nodeToJson : Node → Json
  | .element tag attrs children =>
    .obj [("kind", .str "element"), ("tag", .str tag),
          ("attrs", .arr (attrs.map attrToJson)),
          ("children", .arr (listToJson children))]
  | .text s => .obj [("kind", .str "text"), ("data", .str s)]
  | .comment s => .obj [("kind", .str "comment"), ("data", .str s)]
  | .doctype n p q =>
    .obj [("kind", .str "doctype"), ("name", .str n),
          ("publicId", optToJson p), ("systemId", optToJson q)]

/-- Serialize a list of sibling nodes in order. -/
def listToJson : List Node → List Json
  | [] => []
  | n :: ns => nodeToJson n :: listToJson ns
end

/-- Serialize a whole Document as one object whose `children` array lists the
root's children in order. -/
def docToJson (d : Document) : Json :=
  .obj [("kind", .str "document"), ("children", .arr (listToJson d.children))]

/-- Escape a character for a JSON string literal. -/
def escapeChar (c : Char) : List Char :=
  if c = '"' ∨ c = '\\' then ['\\', c] else [c]

/-- Escape a string for inclusion in a JSON string literal. -/
def escape (s : String) : String :=
  String.mk (s.data.foldr (fun c acc => escapeChar c ++ acc) [])

mutual
/-- Render a JSON value to text. -/
def render : Json → String
  | .str s => "\"" ++ escape s ++ "\""
  | .jnull => "null"
  | .arr items => "[" ++ renderItems items ++ "]"
  | .obj fields => "\x7b" ++ renderFields fields ++ "\x7d"

/-- Render array items separated by commas. -/
def renderItems : List Json → String
  | [] => ""
  | [j] => render j
  | j :: js => render j ++ "," ++ renderItems js

/-- Render object fields separated by commas. -/
def renderFields : List (String × Json) → String
  | [] => ""
  | [(k, v)] => "\"" ++ escape k ++ "\":" ++ render v
  | (k, v) :: fs => "\"" ++ escape k ++ "\":" ++ render v ++ "," ++ renderFields fs
end

/-- Modelled from the spec and the header `koala.h`: `koala_document_to_json`
serializes the document to a JSON string; serialization is total for
well-formed documents and NULL is reserved for resource exhaustion (spec §4.4,
§6), which the model does not exhibit. -/
def koala_document_to_json (doc : Document) : Option String :=
  some (render (docToJson doc))

mutual
/-- Number of JSON objects (node entries) in a JSON value. -/
def jsonObjCount : Json → Nat
  | .obj fields => 1 + fieldsObjCount fields
  | .arr items => itemsObjCount items
  | _ => 0

/-- Number of JSON objects across array items. -/
def itemsObjCount : List Json → Nat
  | [] => 0
  | j :: js => jsonObjCount j + itemsObjCount js

/-- Number of JSON objects across object field values. -/
def fieldsObjCount : List (String × Json) → Nat
  | [] => 0
  | (_, j) :: fs => jsonObjCount j + fieldsObjCount fs
end

theorem itemsObjCount_attrs (attrs : List (String × String)) :
    itemsObjCount (attrs.map attrToJson) = 0 := by
  induction attrs with
  | nil => rfl
  | cons a rest ih =>
    simp only [List.map_cons, itemsObjCount, ih]
    rfl

theorem jsonObjCount_optToJson (o : Option String) : jsonObjCount (optToJson o) = 0 := by
  cases o <;> rfl

mutual
theorem jsonObjCount_nodeToJson : ∀ n : Node, jsonObjCount (nodeToJson n) = nodeSize n
  | .element tag attrs children => by
    simp only [nodeToJson, jsonObjCount, fieldsObjCount, itemsObjCount,
      itemsObjCount_attrs, itemsObjCount_listToJson children, nodeSize]
    omega
  | .text s => rfl
  | .comment s => by
    simp only [nodeToJson, jsonObjCount, fieldsObjCount, nodeSize]
  | .doctype n p q => by
    simp only [nodeToJson, jsonObjCount, fieldsObjCount, jsonObjCount_optToJson, nodeSize]

theorem itemsObjCount_listToJson : ∀ l : List Node, itemsObjCount (listToJson l) = listSize l
  | [] => rfl
  | n :: ns => by
    simp only [listToJson, itemsObjCount, jsonObjCount_nodeToJson n,
      itemsObjCount_listToJson ns, listSize]
end

/-- Decode one serialized attribute pair. -/
def decodeAttr : Json → Option (String × String)
  | .arr [.str k, .str v] => some (k, v)
  | _ => none

/-- Decode a serialized attribute list, in order. -/
def decodeAttrs : List Json → Option (List (String × String))
  | [] => some []
  | j :: js =>
    match decodeAttr j, decodeAttrs js with
    | some a, some rest => some (a :: rest)
    | _, _ => none

/-- Decode a serialized optional identifier. -/
def decodeOpt : Json → Option (Option String)
  | .jnull => some none
  | .str s => some (some s)
  | _ => none

mutual
/-- Decode a serialized node; an external consumer can reconstruct the tree
from the serialized form (spec §4.4 round-trip requirement). -/
def decodeNode : Json → Option Node
  | .obj [("kind", .str "element"), ("tag", .str tag),
          ("attrs", .arr av), ("children", .arr cs)] =>
    match decodeAttrs av, decodeList cs with
    | some attrs, some children => some (.element tag attrs children)
    | _, _ => none
  | .obj [("kind", .str "text"), ("data", .str s)] => some (.text s)
  | .obj [("kind", .str "comment"), ("data", .str s)] => some (.comment s)
  | .obj [("kind", .str "doctype"), ("name", .str n),
          ("publicId", pj), ("systemId", sj)] =>
    match decodeOpt pj, decodeOpt sj with
    | some p, some q => some (.doctype n p q)
    | _, _ => none
  | _ => none

/-- Decode a serialized list of sibling nodes, in order. -/
def decodeList : List Json → Option (List Node)
  | [] => some []
  | j :: js =>
    match decodeNode j, decodeList js with
    | some n, some ns => some (n :: ns)
    | _, _ => none
end

/-- Decode a serialized Document. -/
def decodeDoc : Json → Option Document
  | .obj [("kind", .str "document"), ("children", .arr cs)] =>
    (decodeList cs).map (fun children => ⟨children⟩)
  | _ => none

theorem decodeAttrs_map (l : List (String × String)) :
    decodeAttrs (l.map attrToJson) = some l := by
  induction l with
  | nil => rfl
  | cons a rest ih =>
    simp only [List.map_cons, decodeAttrs, decodeAttr, attrToJson, ih]

theorem decodeOpt_optToJson (o : Option String) : decodeOpt (optToJson o) = some o := by
  cases o <;> rfl

mutual
theorem decodeNode_nodeToJson : ∀ n : Node, decodeNode (nodeToJson n) = some n
  | .element tag attrs children => by
    simp only [nodeToJson, decodeNode, decodeAttrs_map,
      decodeList_listToJson children]
  | .text s => rfl
  | .comment s => rfl
  | .doctype n p q => by
    simp only [nodeToJson, decodeNode, decodeOpt_optToJson]

theorem decodeList_listToJson : ∀ l : List Node, decodeList (listToJson l) = some l
  | [] => rfl
  | n :: ns => by
    simp only [listToJson, decodeList, decodeNode_nodeToJson n,
      decodeList_listToJson ns]
end

/-- C9: serialization places exactly one JSON object entry per Node of the
Document (plus the document wrapper object), and preserves child order and
attribute order exactly as stored: decoding the serialized value reconstructs
the Document verbatim. `koala_document_to_json` renders exactly this value. -/
theorem C9_serialize_one_entry_per_node :
    ∀ d : Document,
      koala_document_to_json d = some (render (docToJson d)) ∧
      jsonObjCount (docToJson d) = 1 + docNodeCount d ∧
      decodeDoc (docToJson d) = some d := by
  intro d
  refine ⟨rfl, ?_, ?_⟩
  · simp only [docToJson, jsonObjCount, fieldsObjCount, itemsObjCount,
      itemsObjCount_listToJson d.children, docNodeCount]
    omega
  · simp only [docToJson, decodeDoc, decodeList_listToJson d.children, Option.map_some']

/-- Modelled from the header `koala.h`: `koala_document_to_json` takes the
document by const pointer; the call is modelled as returning the result
together with the document as it stands after the call. -/
def koala_document_to_json_call (doc : Document) : Option String × Document :=
  (koala_document_to_json doc, doc)

/-- Modelled from the header `koala.h`: `koala_document_child_count` takes the
document by const pointer; the call is modelled as returning the result
together with the document as it stands after the call. -/
def koala_document_child_count_call (doc : Document) : Nat × Document :=
  (koala_document_child_count doc, doc)

/-- C10: the observer operations leave the Document entirely unchanged: after
either call the document (its whole tree, hence all attributes and child
counts) is identical to the input, and observations made after another
observer call coincide with direct observations. -/
theorem C10_observers_pure :
    ∀ d : Document,
      (koala_document_to_json_call d).2 = d ∧
      (koala_document_child_count_call d).2 = d ∧
      koala_document_child_count (koala_document_to_json_call d).2 =
        koala_document_child_count d ∧
      koala_document_to_json (koala_document_child_count_call d).2 =
        koala_document_to_json d :=
  fun _ => ⟨rfl, rfl, rfl, rfl⟩

/-- Modelled from the spec: the node-arena payload (spec §4.3, §9): the Document
owns an arena of nodes addressed by stable indices; parent/child relations are
index relations recorded alongside the arena. -/
inductive NData where
  | doc
  | elem (tag : String) (attrs : List (String × String))
  | txt (s : String)
  | com (s : String)
  | dt (name : String) (publicId systemId : Option String)

/-- One arena entry: the node payload and the indices of its children, in order. -/
structure AEntry where
  nd : NData
  kids : List Nat

/-- Modelled from the spec: the node arena (spec §9): a sequence of entries
addressed by position; index 0 is the document root. -/
def Arena : Type := List AEntry

instance : Append Arena := ⟨fun a b => List.append a b⟩

/-- Start indices of the subtrees of a sibling list laid out from index `i`. -/
def kidIdxs : List Node → Nat → List Nat
  | [], _ => []
  | n :: ns, i => i :: kidIdxs ns (i + nodeSize n)

mutual
/-- Lay out a node's subtree in the arena in preorder starting at index `i`. -/
def flatN : Node → Nat → List AEntry
  | .element tag attrs children, i =>
    ⟨.elem tag attrs, kidIdxs children (i + 1)⟩ :: flatL children (i + 1)
  | .text s, _ => [⟨.txt s, []⟩]
  | .comment s, _ => [⟨.com s, []⟩]
  | .doctype n p q, _ => [⟨.dt n p q, []⟩]

/-- Lay out the subtrees of a sibling list starting at index `i`. -/
def flatL : List Node → Nat → List AEntry
  | [], _ => []
  | n :: ns, i => flatN n i ++ flatL ns (i + nodeSize n)
end

/-- Flatten a Document into the arena representation: entry 0 is the root,
whose children are the root-level nodes. -/
def flattenDoc (d : Document) : List AEntry :=
  ⟨.doc, kidIdxs d.children 1⟩ :: flatL d.children 1

/-- Number of times index `j` occurs as a child across all arena entries
(the number of parents of `j`). -/
def occIn : List AEntry → Nat → Nat
  | [], _ => 0
  | e :: es, j => e.kids.count j + occIn es j

/-- Check that every entry (the first one sitting at index `i`) only references
children with strictly larger index, bounded by `hi`. -/
def edgesOkFrom : Nat → Nat → List AEntry → Bool
  | _, _, [] => true
  | i, hi, e :: es =>
    e.kids.all (fun j => decide (i < j) && decide (j < hi)) && edgesOkFrom (i + 1) hi es

/-- All parent/child edges go from smaller to strictly larger in-bounds indices. -/
def edgesOk (a : List AEntry) : Bool := edgesOkFrom 0 a.length a

/-- Structural arena invariant: edges increase and stay in bounds, the root is
nobody's child, and every index has at most one parent (no shared children). -/
def arenaWf (a : List AEntry) : Bool :=
  edgesOk a && decide (occIn a 0 = 0) &&
    (List.range a.length).all (fun j => decide (occIn a j ≤ 1))

/-- Invariant of a completed Document arena: additionally every node except the
root has exactly one parent. -/
def docWf (a : List AEntry) : Bool :=
  arenaWf a && (List.range a.length).all (fun j => decide (j = 0) || decide (occIn a j = 1))

/-- Modelled from the spec: the `create node` mutation primitive (spec §4.3):
allocate a fresh, unattached, childless node and return its index. -/
def createNode (a : List AEntry) (d : NData) : List AEntry × Nat :=
  (a ++ [⟨d, []⟩], a.length)

/-- Modelled from the spec: the `append child` mutation primitive (spec §4.3):
record node `c` as the last child of node `p`. -/
def appendChild : List AEntry → Nat → Nat → List AEntry
  | [], _, _ => []
  | e :: es, 0, c => { e with kids := e.kids ++ [c] } :: es
  | e :: es, p + 1, c => e :: appendChild es p c

/-- A parent/child edge in the arena, from entry index `i` to child index `j`. -/
def hasEdge (a : List AEntry) (i j : Nat) : Prop :=
  ∃ e, a.get? i = some e ∧ j ∈ e.kids

theorem nodeSize_pos : ∀ n : Node, 0 < nodeSize n := by
  intro n
  cases n <;> simp [nodeSize]

theorem kidIdxs_mem_bounds :
    ∀ (ns : List Node) (i j : Nat), j ∈ kidIdxs ns i → i ≤ j ∧ j < i + listSize ns := by
  intro ns
  induction ns with
  | nil => intro i j h; simp [kidIdxs] at h
  | cons n ns ih =>
    intro i j h
    have hpos := nodeSize_pos n
    have hsz : listSize (n :: ns) = nodeSize n + listSize ns := rfl
    rcases List.mem_cons.mp h with rfl | h
    · constructor
      · exact Nat.le_refl j
      · omega
    · have := ih (i + nodeSize n) j h
      omega

mutual
theorem flatN_length : ∀ (n : Node) (i : Nat), (flatN n i).length = nodeSize n
  | .element tag attrs children, i => by
    simp only [flatN, List.length_cons, flatL_length children (i + 1), nodeSize]
    omega
  | .text s, _ => rfl
  | .comment s, _ => rfl
  | .doctype n p q, _ => rfl

theorem flatL_length : ∀ (l : List Node) (i : Nat), (flatL l i).length = listSize l
  | [], _ => rfl
  | n :: ns, i => by
    simp only [flatL, List.length_append, flatN_length n i,
      flatL_length ns (i + nodeSize n), listSize]
end

theorem edgesOkFrom_append :
    ∀ (es₁ es₂ : List AEntry) (i hi : Nat),
      edgesOkFrom i hi (es₁ ++ es₂) =
        (edgesOkFrom i hi es₁ && edgesOkFrom (i + es₁.length) hi es₂) := by
  intro es₁
  induction es₁ with
  | nil => intro es₂ i hi; simp [edgesOkFrom]
  | cons e es ih =>
    intro es₂ i hi
    simp only [List.cons_append, edgesOkFrom, List.append_eq, ih es₂ (i + 1) hi,
      List.length_cons, Bool.and_assoc]
    have h : i + (es.length + 1) = i + 1 + es.length := by omega
    rw [h]

theorem edgesOkFrom_mono :
    ∀ (es : List AEntry) (i hi hi' : Nat),
      hi ≤ hi' → edgesOkFrom i hi es = true → edgesOkFrom i hi' es = true := by
  intro es
  induction es with
  | nil => intro i hi hi' _ _; rfl
  | cons e es ih =>
    intro i hi hi' hle h
    simp only [edgesOkFrom, Bool.and_eq_true, List.all_eq_true] at h ⊢
    obtain ⟨h1, h2⟩ := h
    refine ⟨fun j hj => ?_, ih (i + 1) hi hi' hle h2⟩
    have := h1 j hj
    simp only [Bool.and_eq_true, decide_eq_true_eq] at this ⊢
    omega

mutual
theorem flatN_edges : ∀ (n : Node) (i : Nat),
    edgesOkFrom i (i + nodeSize n) (flatN n i) = true
  | .element tag attrs children, i => by
    have hsz : nodeSize (Node.element tag attrs children) = 1 + listSize children := rfl
    simp only [flatN, edgesOkFrom, Bool.and_eq_true, List.all_eq_true]
    constructor
    · intro j hj
      have hb := kidIdxs_mem_bounds children (i + 1) j hj
      simp only [Bool.and_eq_true, decide_eq_true_eq]
      omega
    · have h := flatL_edges children (i + 1)
      exact edgesOkFrom_mono _ _ _ _ (by omega) h
  | .text s, i => by simp [flatN, edgesOkFrom]
  | .comment s, i => by simp [flatN, edgesOkFrom]
  | .doctype n p q, i => by simp [flatN, edgesOkFrom]

theorem flatL_edges : ∀ (l : List Node) (i : Nat),
    edgesOkFrom i (i + listSize l) (flatL l i) = true
  | [], _ => rfl
  | n :: ns, i => by
    have hsz : listSize (n :: ns) = nodeSize n + listSize ns := rfl
    simp only [flatL, edgesOkFrom_append, Bool.and_eq_true]
    constructor
    · exact edgesOkFrom_mono _ _ _ _ (by omega) (flatN_edges n i)
    · rw [flatN_length]
      have h := flatL_edges ns (i + nodeSize n)
      exact edgesOkFrom_mono _ _ _ _ (by omega) h
end

theorem kidIdxs_count :
    ∀ (ns : List Node) (i j : Nat),
      (kidIdxs ns i).count j = if j ∈ kidIdxs ns i then 1 else 0 := by
  intro ns
  induction ns with
  | nil => intro i j; simp [kidIdxs]
  | cons n ns ih =>
    intro i j
    have hpos := nodeSize_pos n
    by_cases hji : j = i
    · subst hji
      have hnot : j ∉ kidIdxs ns (j + nodeSize n) := fun hmem => by
        have := kidIdxs_mem_bounds ns (j + nodeSize n) j hmem
        omega
      simp [kidIdxs, List.count_cons, List.count_eq_zero.mpr hnot, hnot]
    · have h := ih (i + nodeSize n) j
      simp [kidIdxs, List.count_cons, hji, h]

theorem occIn_append :
    ∀ (es₁ es₂ : List AEntry) (j : Nat),
      occIn (es₁ ++ es₂) j = occIn es₁ j + occIn es₂ j := by
  intro es₁
  induction es₁ with
  | nil => intro es₂ j; simp [occIn]
  | cons e es ih =>
    intro es₂ j
    simp only [List.cons_append, List.append_eq, occIn, ih]
    omega

mutual
theorem flatN_occ : ∀ (n : Node) (i j : Nat),
    occIn (flatN n i) j = if i < j ∧ j < i + nodeSize n then 1 else 0
  | .element tag attrs children, i, j => by
    have hsz : nodeSize (Node.element tag attrs children) = 1 + listSize children := rfl
    simp only [flatN, occIn]
    rw [flatL_occ children (i + 1) j, kidIdxs_count, hsz]
    by_cases hm : j ∈ kidIdxs children (i + 1)
    · have hb := kidIdxs_mem_bounds children (i + 1) j hm
      rw [if_pos hm, if_neg (fun h => h.2.2 hm), if_pos (by omega)]
    · rw [if_neg hm]
      by_cases hr : i + 1 ≤ j ∧ j < i + 1 + listSize children
      · rw [if_pos ⟨hr.1, hr.2, hm⟩, if_pos (by omega)]
      · rw [if_neg (fun h => hr ⟨h.1, h.2.1⟩), if_neg (by omega)]
  | .text s, i, j => by
    simp only [flatN, occIn, List.count_nil, nodeSize]
    rw [if_neg (by omega)]
  | .comment s, i, j => by
    simp only [flatN, occIn, List.count_nil, nodeSize]
    rw [if_neg (by omega)]
  | .doctype n p q, i, j => by
    simp only [flatN, occIn, List.count_nil, nodeSize]
    rw [if_neg (by omega)]

theorem flatL_occ : ∀ (l : List Node) (i j : Nat),
    occIn (flatL l i) j =
      if i ≤ j ∧ j < i + listSize l ∧ j ∉ kidIdxs l i then 1 else 0
  | [], i, j => by
    simp only [flatL, occIn, listSize]
    rw [if_neg (by omega)]
  | n :: ns, i, j => by
    have hpos := nodeSize_pos n
    simp only [flatL, occIn_append, listSize, kidIdxs, List.mem_cons]
    rw [flatN_occ n i j, flatL_occ ns (i + nodeSize n) j]
    by_cases h2 : j ∈ kidIdxs ns (i + nodeSize n)
    · have hb := kidIdxs_mem_bounds ns (i + nodeSize n) j h2
      rw [if_neg (by omega), if_neg (fun h => h.2.2 h2),
        if_neg (fun h => h.2.2 (Or.inr h2))]
    · by_cases hji : j = i
      · subst hji
        rw [if_neg (by omega), if_neg (by omega),
          if_neg (fun h => h.2.2 (Or.inl rfl))]
      · by_cases h1 : i < j ∧ j < i + nodeSize n
        · rw [if_pos h1, if_neg (by omega),
            if_pos ⟨by omega, by omega, fun hc => hc.elim (fun h => hji h) (fun h => h2 h)⟩]
        · by_cases h3 : i + nodeSize n ≤ j ∧ j < i + (nodeSize n + listSize ns)
          · rw [if_neg h1, if_pos ⟨h3.1, by omega, h2⟩,
              if_pos ⟨by omega, by omega, fun hc => hc.elim (fun h => hji h) (fun h => h2 h)⟩]
          · rw [if_neg h1, if_neg (fun h => h3 ⟨h.1, by omega⟩), if_neg ?hneg]
            case hneg =>
              rintro ⟨hle, hlt, hnor⟩
              have hne : j ≠ i := fun e => hnor (Or.inl e)
              by_cases hcase : j < i + nodeSize n
              · exact h1 ⟨by omega, hcase⟩
              · exact h3 ⟨by omega, by omega⟩
end

theorem flattenDoc_length (d : Document) :
    (flattenDoc d).length = 1 + listSize d.children := by
  simp [flattenDoc, flatL_length]
  omega

theorem flattenDoc_occ (d : Document) (j : Nat) :
    occIn (flattenDoc d) j = if 1 ≤ j ∧ j < 1 + listSize d.children then 1 else 0 := by
  simp only [flattenDoc, occIn]
  rw [kidIdxs_count, flatL_occ]
  by_cases hm : j ∈ kidIdxs d.children 1
  · have hb := kidIdxs_mem_bounds d.children 1 j hm
    rw [if_pos hm, if_neg (fun h => h.2.2 hm), if_pos (by omega)]
  · rw [if_neg hm]
    by_cases hr : 1 ≤ j ∧ j < 1 + listSize d.children
    · rw [if_pos ⟨hr.1, hr.2, hm⟩, if_pos hr]
    · rw [if_neg (fun h => hr ⟨h.1, h.2.1⟩), if_neg hr]

theorem flattenDoc_edges (d : Document) : edgesOk (flattenDoc d) = true := by
  unfold edgesOk
  rw [flattenDoc_length]
  simp only [flattenDoc, edgesOkFrom, Bool.and_eq_true, List.all_eq_true]
  constructor
  · intro j hj
    have hb := kidIdxs_mem_bounds d.children 1 j hj
    simp only [Bool.and_eq_true, decide_eq_true_eq]
    omega
  · exact edgesOkFrom_mono _ _ _ _ (by omega) (flatL_edges d.children 1)

theorem flattenDoc_docWf (d : Document) : docWf (flattenDoc d) = true := by
  unfold docWf arenaWf
  simp only [Bool.and_eq_true, List.all_eq_true]
  refine ⟨⟨⟨flattenDoc_edges d, ?_⟩, ?_⟩, ?_⟩
  · simp [flattenDoc_occ]
  · intro j hj
    simp only [decide_eq_true_eq]
    rw [flattenDoc_occ]
    split <;> omega
  · intro j hj
    have hj' := List.mem_range.mp hj
    rw [flattenDoc_length] at hj'
    simp only [Bool.or_eq_true, decide_eq_true_eq]
    by_cases h0 : j = 0
    · exact Or.inl h0
    · right
      rw [flattenDoc_occ, if_pos (by omega)]

theorem appendChild_length :
    ∀ (a : List AEntry) (p c : Nat), (appendChild a p c).length = a.length := by
  intro a
  induction a with
  | nil => intro p c; rfl
  | cons e es ih =>
    intro p c
    cases p with
    | zero => simp [appendChild]
    | succ p => simp [appendChild, ih]

theorem count_append_single (l : List Nat) (c j : Nat) :
    (l ++ [c]).count j = l.count j + (if j = c then 1 else 0) := by
  by_cases h : j = c <;>
    simp [List.count_append, List.count_cons, List.count_nil, h]

theorem occIn_appendChild :
    ∀ (a : List AEntry) (p c j : Nat),
      occIn (appendChild a p c) j =
        occIn a j + (if p < a.length ∧ j = c then 1 else 0) := by
  intro a
  induction a with
  | nil =>
    intro p c j
    simp [appendChild, occIn]
  | cons e es ih =>
    intro p c j
    cases p with
    | zero =>
      simp only [appendChild, occIn, count_append_single, List.length_cons]
      split_ifs <;> omega
    | succ p =>
      simp only [appendChild, occIn, ih p c j, List.length_cons]
      split_ifs <;> omega

theorem edgesOkFrom_appendChild :
    ∀ (a : List AEntry) (i hi p c : Nat),
      edgesOkFrom i hi a = true → i + p < c → c < hi →
      edgesOkFrom i hi (appendChild a p c) = true := by
  intro a
  induction a with
  | nil => intro i hi p c h _ _; exact h
  | cons e es ih =>
    intro i hi p c h hpc hc
    simp only [edgesOkFrom, Bool.and_eq_true, List.all_eq_true] at h
    obtain ⟨h1, h2⟩ := h
    cases p with
    | zero =>
      simp only [appendChild, edgesOkFrom, Bool.and_eq_true, List.all_eq_true]
      refine ⟨?_, h2⟩
      intro j hj
      rcases List.mem_append.mp hj with hj | hj
      · exact h1 j hj
      · rcases List.mem_singleton.mp hj with rfl
        simp only [Bool.and_eq_true, decide_eq_true_eq]
        omega
    | succ p =>
      simp only [appendChild, edgesOkFrom, Bool.and_eq_true, List.all_eq_true]
      exact ⟨h1, ih (i + 1) hi p c h2 (by omega) hc⟩

theorem occIn_eq_zero_of_ge :
    ∀ (es : List AEntry) (i hi j : Nat),
      edgesOkFrom i hi es = true → hi ≤ j → occIn es j = 0 := by
  intro es
  induction es with
  | nil => intro i hi j _ _; rfl
  | cons e es ih =>
    intro i hi j h hle
    simp only [edgesOkFrom, Bool.and_eq_true, List.all_eq_true] at h
    obtain ⟨h1, h2⟩ := h
    have hz : e.kids.count j = 0 := by
      rw [List.count_eq_zero]
      intro hmem
      have := h1 j hmem
      simp only [Bool.and_eq_true, decide_eq_true_eq] at this
      omega
    simp only [occIn, hz, ih (i + 1) hi j h2 hle]

theorem createNode_wf (a : List AEntry) (d : NData)
    (h : arenaWf a = true) : arenaWf (createNode a d).1 = true := by
  unfold arenaWf edgesOk at h ⊢
  simp only [Bool.and_eq_true, List.all_eq_true, decide_eq_true_eq] at h ⊢
  obtain ⟨⟨he, h0⟩, hle⟩ := h
  unfold createNode
  have hlen : (a ++ [(⟨d, []⟩ : AEntry)]).length = a.length + 1 := by simp
  have hocc : ∀ j, occIn (a ++ [(⟨d, []⟩ : AEntry)]) j = occIn a j := by
    intro j
    rw [occIn_append]
    simp [occIn]
  refine ⟨⟨?_, ?_⟩, ?_⟩
  · rw [hlen, edgesOkFrom_append]
    simp only [Bool.and_eq_true]
    refine ⟨edgesOkFrom_mono _ _ _ _ (by omega) he, ?_⟩
    simp [edgesOkFrom]
  · rw [hocc]
    exact h0
  · intro j hj
    rw [hocc]
    have hj' := List.mem_range.mp hj
    rw [hlen] at hj'
    by_cases hcase : j < a.length
    · exact hle j (List.mem_range.mpr hcase)
    · have hja : j = a.length := by omega
      rw [hja, occIn_eq_zero_of_ge a 0 a.length a.length he (Nat.le_refl _)]
      omega

theorem appendChild_wf (a : List AEntry) (p c : Nat)
    (h : arenaWf a = true) (hpc : p < c) (hc : c < a.length)
    (hfree : occIn a c = 0) : arenaWf (appendChild a p c) = true := by
  unfold arenaWf edgesOk at h ⊢
  simp only [Bool.and_eq_true, List.all_eq_true, decide_eq_true_eq] at h ⊢
  obtain ⟨⟨he, h0⟩, hle⟩ := h
  have hlen := appendChild_length a p c
  refine ⟨⟨?_, ?_⟩, ?_⟩
  · rw [hlen]
    exact edgesOkFrom_appendChild a 0 a.length p c he (by omega) hc
  · rw [occIn_appendChild, if_neg (fun hcon => by omega)]
    omega
  · intro j hj
    rw [hlen] at hj
    rw [occIn_appendChild]
    by_cases hjc : j = c
    · subst hjc
      rw [hfree]
      split_ifs <;> omega
    · rw [if_neg (fun hcon => hjc hcon.2)]
      have := hle j hj
      omega

theorem edgesOkFrom_get :
    ∀ (es : List AEntry) (i hi k : Nat) (e : AEntry),
      edgesOkFrom i hi es = true → es.get? k = some e →
      ∀ j ∈ e.kids, i + k < j ∧ j < hi := by
  intro es
  induction es with
  | nil => intro i hi k e _ hg; simp [List.get?] at hg
  | cons x es ih =>
    intro i hi k e h hg
    simp only [edgesOkFrom, Bool.and_eq_true, List.all_eq_true] at h
    obtain ⟨h1, h2⟩ := h
    cases k with
    | zero =>
      simp only [List.get?] at hg
      injection hg with hxe
      subst hxe
      intro j hj
      have := h1 j hj
      simp only [Bool.and_eq_true, decide_eq_true_eq] at this
      omega
    | succ k =>
      simp only [List.get?] at hg
      intro j hj
      have := ih (i + 1) hi k e h2 hg j hj
      omega

theorem transGen_lt (a : List AEntry) (he : edgesOk a = true) :
    ∀ i j : Nat, Relation.TransGen (hasEdge a) i j → i < j := by
  intro i j h
  induction h with
  | single hstep =>
    obtain ⟨e, hg, hk⟩ := hstep
    have := edgesOkFrom_get a 0 a.length _ e he hg _ hk
    omega
  | tail hprev hstep ih =>
    obtain ⟨e, hg, hk⟩ := hstep
    have := edgesOkFrom_get a 0 a.length _ e he hg _ hk
    omega

/-- C7: every Document produced by `koala_parse_html`, laid out in the node
arena of spec §9, satisfies the tree invariant: index 0 is the unique root and
is nobody's child, every other node has exactly one parent, all parent/child
edges go to strictly larger in-bounds indices, and the parent/child relation
has no cycles; moreover the structural mutation primitives `createNode` and
`appendChild` (appending a fresh, unattached node below a smaller index)
preserve the arena invariant. -/
theorem C7_tree_invariant :
    (∀ (s : String) (d : Document), koala_parse_html s = some d →
      docWf (flattenDoc d) = true) ∧
    (∀ (a : List AEntry) (x : NData), arenaWf a = true →
      arenaWf (createNode a x).1 = true) ∧
    (∀ (a : List AEntry) (p c : Nat), arenaWf a = true → p < c → c < a.length →
      occIn a c = 0 → arenaWf (appendChild a p c) = true) ∧
    (∀ (a : List AEntry) (i : Nat), edgesOk a = true →
      ¬ Relation.TransGen (hasEdge a) i i) := by
  refine ⟨?_, ?_, ?_, ?_⟩
  · intro s d _
    exact flattenDoc_docWf d
  · intro a x h
    exact createNode_wf a x h
  · intro a p c h h1 h2 h3
    exact appendChild_wf a p c h h1 h2 h3
  · intro a i he hcyc
    exact absurd (transGen_lt a he i i hcyc) (by omega)

theorem C7_tree_invariant_witness :
    (docWf (flattenDoc (build (tokenize "<p>hi"))) = true) ∧
    (arenaWf (createNode ([⟨NData.doc, []⟩] : List AEntry) (NData.txt "x")).1 = true) ∧
    (arenaWf (appendChild ([⟨NData.doc, []⟩, ⟨NData.txt "x", []⟩] : List AEntry) 0 1) = true) ∧
    ¬ Relation.TransGen
        (hasEdge ([⟨NData.doc, [1]⟩, ⟨NData.txt "x", []⟩] : List AEntry)) 0 0 :=
  ⟨C7_tree_invariant.1 "<p>hi" _ rfl,
   C7_tree_invariant.2.1 _ _ (by decide),
   C7_tree_invariant.2.2.1 _ 0 1 (by decide) (by decide) (by decide) (by decide),
   C7_tree_invariant.2.2.2 _ 0 (by decide)⟩
